import Mathlib

/-
Verification of the simpledb storage core: the slotted page (src/include/page.hpp)
and the weak/strong LRU cache (lru.hpp).

The page is embedded as a record of the two header offsets plus the data buffer
(a byte function), with every store into a header field taken modulo the width
of intra_offset_t, matching the C++ unsigned truncation.  intra_offset_t is
uint16_t when the capacity is at most 16384 and uint32_t otherwise, exactly as
in the source.  Fallible operations return Except: badAlloc models the
std::bad_alloc throw, outOfRange models std::out_of_range, and undefinedBehavior marks an
execution that the C++ source would run into undefined behaviour on (an access
outside the m_data array, or a splice through an invalidated list iterator); no
theorem below relies on the value of an undefinedBehavior execution.
-/

/-- Width in bytes of intra_offset_t: uint16_t for capacities up to 16384, else uint32_t. -/
def wP (P : Nat) : Nat := if P ≤ 16384 then 2 else 4

/-- sizeof(header): two intra_offset_t fields, no padding. -/
def headerSize (P : Nat) : Nat := 2 * wP P

/-- data_size = PageSize - sizeof(header). -/
def dataSize (P : Nat) : Nat := P - headerSize P

/-- Modulus of intra_offset_t arithmetic (2^16 or 2^32). -/
def Mof (P : Nat) : Nat := 2 ^ (8 * wP P)

/-- The page state: the two header offsets and the m_data byte buffer. -/
structure page where
  free_region_start : Nat
  free_region_end : Nat
  data : Nat → Nat

/-- Read a w-byte little-endian unsigned integer from buffer d at position pos. -/
def readLE : Nat → (Nat → Nat) → Nat → Nat
  | 0, _, _ => 0
  | w + 1, d, pos => d pos + 256 * readLE w d (pos + 1)

/-- Write a w-byte little-endian unsigned integer v into buffer d at position pos. -/
def writeLE : Nat → (Nat → Nat) → Nat → Nat → (Nat → Nat)
  | 0, d, _, _ => d
  | w + 1, d, pos, v =>
      writeLE w (fun i => if i = pos then v % 256 else d i) (pos + 1) (v / 256)

/-- A std::string_view argument: a length (a size_t, so below 2^64 in any real
execution) together with its bytes. -/
structure ByteStr where
  len : Nat
  bytes : Nat → Nat

/-- The byte list a ByteStr denotes. -/
def ByteStr.toList (r : ByteStr) : List Nat := (List.range r.len).map r.bytes

/-- std::copy of the payload bytes of r into buffer d starting at pos. -/
def writeBytes (d : Nat → Nat) (pos : Nat) (r : ByteStr) : Nat → Nat :=
  fun i => if pos ≤ i ∧ i < pos + r.len then r.bytes (i - pos) else d i

/-- The page constructor: free_region_start = sizeof(header),
free_region_end = data_size; the buffer holds indeterminate bytes d0. -/
def newPage (P : Nat) (d0 : Nat → Nat) : page :=
  { free_region_start := headerSize P % Mof P
    free_region_end := dataSize P % Mof P
    data := d0 }

/-- size(): (free_region_start - sizeof(header)) / sizeof(intra_offset_t), in
size_t arithmetic (the subtraction wraps modulo 2^64 when start is below the
header size). -/
def pageSize (P : Nat) (p : page) : Nat :=
  ((p.free_region_start + 2 ^ 64) - headerSize P) % 2 ^ 64 / wP P

/-- contains(index): index < size(). -/
def pageContains (P : Nat) (p : page) (index : Nat) : Prop :=
  index < pageSize P p

instance (P p index) : Decidable (pageContains P p index) :=
  inferInstanceAs (Decidable (_ < _))

/-- empty(): size() == 0. -/
def pageEmpty (P : Nat) (p : page) : Prop := pageSize P p = 0

/-- free_space(): free_region_end - free_region_start.  For uint16_t offsets the
operands promote to int and the (possibly negative) difference converts to the
size_t result, i.e. the value wraps modulo 2^64; for uint32_t offsets the
subtraction itself wraps modulo 2^32. -/
def pageFreeSpace (P : Nat) (p : page) : Nat :=
  if P ≤ 16384 then ((p.free_region_end + 2 ^ 64) - p.free_region_start) % 2 ^ 64
  else ((p.free_region_end + 2 ^ 32) - p.free_region_start) % 2 ^ 32

/-- fits(size): free_space() >= size. -/
def pageFits (P : Nat) (p : page) (n : Nat) : Prop :=
  n ≤ pageFreeSpace P p

instance (P p n) : Decidable (pageFits P p n) :=
  inferInstanceAs (Decidable (_ ≤ _))

/-- Failure modes of the page operations. -/
inductive PageFault where
  | badAlloc
  | outOfRange
  | undefinedBehavior
deriving DecidableEq

instance : DecidableEq (Except PageFault (List Nat)) := fun a b =>
  match a, b with
  | .ok x, .ok y => decidable_of_iff (x = y) (by simp)
  | .error x, .error y => decidable_of_iff (x = y) (by simp)
  | .ok _, .error _ => isFalse (by simp)
  | .error _, .ok _ => isFalse (by simp)

/-- insert(data): the source checks fits(data.size() + sizeof(intra_offset_t) + 2)
(note the literal 2, not the width of the length prefix), then writes the length
prefix at start = free_region_end - data.size() - sizeof(intra_offset_t), copies
the payload after it, stores start in the offset table slot of the new entry,
advances free_region_start by the offset width and sets free_region_end = start.
All size_t sums are taken modulo 2^64 and header stores modulo the offset width;
a write that would leave the m_data array is undefined behaviour (undefinedBehavior). -/
def pageInsert (P : Nat) (p : page) (r : ByteStr) : Except PageFault (page × Nat) :=
  let W := wP P
  if ¬ pageFits P p ((r.len + W + 2) % 2 ^ 64) then .error .badAlloc
  else
    let start := ((p.free_region_end + 2 * 2 ^ 64) - (r.len + W)) % 2 ^ 64
    let current := pageSize P p
    if start + W + r.len ≤ dataSize P ∧ W * current + W ≤ dataSize P then
      let d1 := writeLE W p.data start r.len
      let d2 := writeBytes d1 (start + W) r
      let d3 := writeLE W d2 (W * current) start
      .ok ({ free_region_start := (p.free_region_start + W) % Mof P
             free_region_end := start % Mof P
             data := d3 }, current)
    else .error .undefinedBehavior

/-- at(index): throws out_of_range unless contains(index); otherwise reads the
offset-table entry, the length prefix it points at, and returns a view of that
many payload bytes.  Reads outside m_data are undefined behaviour (undefinedBehavior). -/
def pageAt (P : Nat) (p : page) (index : Nat) : Except PageFault (List Nat) :=
  let W := wP P
  if ¬ pageContains P p index then .error .outOfRange
  else if W * index + W ≤ dataSize P then
    let off := readLE W p.data (W * index)
    if off + W ≤ dataSize P then
      let len := readLE W p.data off
      if off + W + len ≤ dataSize P then
        .ok ((List.range len).map fun j => p.data (off + W + j))
      else .error .undefinedBehavior
    else .error .undefinedBehavior
  else .error .undefinedBehavior

/-- clear(): free_region_start = sizeof(header) but free_region_end = PageSize
(the source stores the full page size, not data_size). -/
def pageClear (P : Nat) (p : page) : page :=
  { p with free_region_start := headerSize P % Mof P
           free_region_end := P % Mof P }

/-- One byte of the serialized header: the two offsets in field order,
little-endian. -/
def hdrByte (P : Nat) (p : page) (i : Nat) : Nat :=
  if i < wP P then p.free_region_start / 256 ^ i % 256
  else p.free_region_end / 256 ^ (i - wP P) % 256

/-- operator<<: the header struct verbatim followed by the whole m_data buffer. -/
def serializePage (P : Nat) (p : page) : List Nat :=
  (List.range (2 * wP P)).map (hdrByte P p) ++ (List.range (dataSize P)).map p.data

/-- operator>>: reads sizeof(header) bytes into the header then data_size bytes
into the buffer of the destination page q. -/
def deserializePage (P : Nat) (bs : List Nat) (q : page) : page :=
  { free_region_start := readLE (wP P) (fun i => bs.getD i 0) 0
    free_region_end := readLE (wP P) (fun i => bs.getD i 0) (wP P)
    data := fun i => if i < dataSize P then bs.getD (2 * wP P + i) 0 else q.data i }

/-- Pages built from a fresh page by a sequence of successful inserts. -/
inductive PageReached (P : Nat) : page → Prop
  | base (d0 : Nat → Nat) : PageReached P (newPage P d0)
  | step {p r p' idx} : PageReached P p → pageInsert P p r = .ok (p', idx) →
      PageReached P p'

/-- Pages built by successful inserts, remembering the records inserted in
order.  Payload lengths are size_t values, hence below 2^64. -/
inductive PageTrace (P : Nat) : page → List ByteStr → Prop
  | base (d0 : Nat → Nat) : PageTrace P (newPage P d0) []
  | step {p rs r p' idx} : PageTrace P p rs → r.len < 2 ^ 64 →
      pageInsert P p r = .ok (p', idx) → PageTrace P p' (rs ++ [r])

/-- Total bytes the stored records occupy: each record is a 2-byte length
prefix plus its payload (16-bit offset pages). -/
def recsSize (rs : List ByteStr) : Nat := (rs.map (fun r => r.len + 2)).sum

/-- Start offset of record i inside the data buffer (16-bit offset pages):
records pack downward from the end of the buffer. -/
def startAt (P : Nat) (rs : List ByteStr) (i : Nat) : Nat :=
  dataSize P - recsSize (rs.take (i + 1))

/-- Layout invariant of a 16-bit-offset page holding the record sequence rs. -/
structure PageInv (P : Nat) (p : page) (rs : List ByteStr) : Prop where
  sum_le : recsSize rs + 4 + 2 * rs.length ≤ dataSize P
  fs_eq : p.free_region_start = 4 + 2 * rs.length
  fe_eq : p.free_region_end = dataSize P - recsSize rs
  table : ∀ i, i < rs.length → readLE 2 p.data (2 * i) = startAt P rs i
  plen : ∀ i (h : i < rs.length),
      readLE 2 p.data (startAt P rs i) = (rs.get ⟨i, h⟩).len
  pbytes : ∀ i (h : i < rs.length), ∀ j, j < (rs.get ⟨i, h⟩).len →
      p.data (startAt P rs i + 2 + j) = (rs.get ⟨i, h⟩).bytes j

/-
The LRU cache (lru.hpp).  Values live in heap cells identified by a Nat; the
environment (the external strong owners) holds ext c shared_ptr copies of cell
c.  The cache's m_list is std::list of shared_ptr, so every list node holds one
further strong reference: the total strong count of a cell is ext c plus the
number of list nodes whose pointer is c, and a weak_ptr lock on c succeeds
exactly when that total is positive.  List nodes carry a unique id so that the
stored std::list iterators (m_iter_map) can be modelled: an iterator is the id
of the node it points at, it survives splices, and it dangles once its node is
erased.  Operations that the C++ source would run into undefined behaviour on
(pop_back on an empty list, splice through a dangling or singular iterator)
return none.
-/

/-- A node of m_list: its identity (the C++ node address) and the cell its
shared_ptr owns. -/
structure LNode where
  id : Nat
  cell : Nat
deriving DecidableEq

/-- The lru object state: m_list, m_map (weak pointers), m_iter_map, m_size,
plus a counter supplying fresh node identities. -/
structure LruState where
  m_list : List LNode
  m_map : Nat → Option Nat
  m_iter_map : Nat → Option Nat
  m_size : Nat
  nextNode : Nat

/-- A world: the cache plus the heap of external strong-owner counts and a
fresh-cell counter. -/
structure World where
  cache : LruState
  ext : Nat → Nat
  nextCell : Nat

/-- Number of m_list nodes whose shared_ptr owns cell c. -/
def countCell (c : Nat) (l : List LNode) : Nat :=
  (l.filter (fun n => n.cell == c)).length

/-- Total strong count of cell c: external owners plus the m_list references. -/
def strongCount (w : World) (c : Nat) : Nat :=
  w.ext c + countCell c w.cache.m_list

/-- lru(size): empty list and maps, m_size = size. -/
def initLru (cap : Nat) : LruState :=
  { m_list := [], m_map := fun _ => none, m_iter_map := fun _ => none
    m_size := cap, nextNode := 0 }

/-- A world with a fresh cache of the given capacity and no allocated cells. -/
def initWorld (cap : Nat) : World :=
  { cache := initLru cap, ext := fun _ => 0, nextCell := 0 }

/-- pop_back: undefined behaviour on an empty list. -/
def popBack (l : List LNode) : Option (List LNode) :=
  if l = [] then none else some l.dropLast

/-- insert(key, ptr): if m_list.size() >= m_size, pop_back (dropping that
node's strong reference); then push_front the pointer, set m_map[key] to a weak
pointer to it and m_iter_map[key] to the new begin() iterator. -/
def lruInsert (k c : Nat) (w : World) : Option World :=
  let s := w.cache
  let step1 : Option (List LNode) :=
    if s.m_size ≤ s.m_list.length then popBack s.m_list else some s.m_list
  match step1 with
  | none => none
  | some l1 =>
      some { w with cache :=
        { s with
          m_list := ⟨s.nextNode, c⟩ :: l1
          m_map := fun k2 => if k2 = k then some c else s.m_map k2
          m_iter_map := fun k2 => if k2 = k then some s.nextNode else s.m_iter_map k2
          nextNode := s.nextNode + 1 } }

/-- Find and remove the m_list node with identity nid, keeping the rest in
order; none when no such node exists (the iterator dangles). -/
def extractNode (nid : Nat) : List LNode → Option (LNode × List LNode)
  | [] => none
  | n :: rest =>
      if n.id = nid then some (n, rest)
      else match extractNode nid rest with
           | none => none
           | some (m, l) => some (m, n :: l)

/-- get(key): nullptr when m_map lacks the key; if the weak pointer no longer
locks (total strong count zero) erase the key from m_map and m_iter_map and
return nullptr; otherwise splice the node m_iter_map[key] points at to the
front and return the locked pointer. -/
def lruGet (k : Nat) (w : World) : Option (World × Option Nat) :=
  let s := w.cache
  match s.m_map k with
  | none => some (w, none)
  | some c =>
      if w.ext c + countCell c s.m_list = 0 then
        some ({ w with cache :=
          { s with
            m_map := fun k2 => if k2 = k then none else s.m_map k2
            m_iter_map := fun k2 => if k2 = k then none else s.m_iter_map k2 } }, none)
      else
        match s.m_iter_map k with
        | none => none
        | some nid =>
            match extractNode nid s.m_list with
            | none => none
            | some (n, rest) =>
                some ({ w with cache := { s with m_list := n :: rest } }, some c)

/-- Destruction of one external strong owner of cell c. -/
def releaseW (c : Nat) (w : World) : Option World :=
  if w.ext c = 0 then none
  else some { w with ext := fun c2 => if c2 = c then w.ext c - 1 else w.ext c2 }

/-- make_shared by an external owner: a fresh cell with one strong owner. -/
def allocCell (w : World) : World × Nat :=
  ({ w with
      ext := fun c2 => if c2 = w.nextCell then w.ext c2 + 1 else w.ext c2
      nextCell := w.nextCell + 1 }, w.nextCell)

/-- One step of the cache's environment: allocate a value, release an external
owner, insert a live pointer, or get. -/
inductive LruStep : World → World → Prop
  | alloc (w) : LruStep w (allocCell w).1
  | release (c w w') : releaseW c w = some w' → LruStep w w'
  | insert (k c w w') : 0 < w.ext c → lruInsert k c w = some w' → LruStep w w'
  | get (k w w' r) : lruGet k w = some (w', r) → LruStep w w'

/-- Worlds reachable from a fresh cache of capacity cap. -/
inductive ReachableW (cap : Nat) : World → Prop
  | init : ReachableW cap (initWorld cap)
  | step {w w'} : ReachableW cap w → LruStep w w' → ReachableW cap w'

/-
Concrete executions used by the counterexamples and witnesses below.
-/

/-- Header fields and returned index of a successful insert, none on failure. -/
def insOut (e : Except PageFault (page × Nat)) : Option (Nat × Nat × Nat) :=
  match e with
  | .ok pr => some (pr.1.free_region_start, pr.1.free_region_end, pr.2)
  | .error _ => none

/-- The page a successful insert produced (the argument page when it failed). -/
def insPage (p : page) (e : Except PageFault (page × Nat)) : page :=
  match e with
  | .ok pr => pr.1
  | .error _ => p

/-- A freshly constructed page of the default capacity 16384. -/
def fresh16384 : page := newPage 16384 (fun _ => 0)

/-- That page after clear(). -/
def cleared16384 : page := pageClear 16384 fresh16384

/-- A freshly constructed page of capacity 16388 (32-bit offsets). -/
def wideP0 : page := newPage 16388 (fun _ => 0)

/-- A 16365-byte record: one byte less than the free space of wideP0 minus the
true per-record overhead of 8 bytes. -/
def wideR1 : ByteStr := ⟨16365, fun _ => 0⟩

/-- A 3-byte record. -/
def wideR2 : ByteStr := ⟨3, fun _ => 65⟩

/-- Insertion of wideR1 into the fresh capacity-16388 page. -/
def wideStep1 : Except PageFault (page × Nat) := pageInsert 16388 wideP0 wideR1

/-- The capacity-16388 page after the first insert. -/
def wideP1 : page := insPage wideP0 wideStep1

/-- Insertion of wideR2 into wideP1. -/
def wideStep2 : Except PageFault (page × Nat) := pageInsert 16388 wideP1 wideR2

/-- The capacity-16388 page after both inserts. -/
def wideP2 : page := insPage wideP1 wideStep2

/-- A freshly constructed page of capacity 128. -/
def smallP0 : page := newPage 128 (fun _ => 0)

/-- The five bytes of the string Hello. -/
def smallR1 : ByteStr := ⟨5, fun i => [72, 101, 108, 108, 111].getD i 0⟩

/-- The five bytes of the string World. -/
def smallR2 : ByteStr := ⟨5, fun i => [87, 111, 114, 108, 100].getD i 0⟩

/-- The capacity-128 page after inserting smallR1. -/
def smallP1 : page := insPage smallP0 (pageInsert 128 smallP0 smallR1)

/-- The capacity-128 page after inserting smallR1 then smallR2. -/
def smallP2 : page := insPage smallP1 (pageInsert 128 smallP1 smallR2)

/-- A fresh capacity-1 cache world. -/
def lruW0 : World := initWorld 1

/-- One value allocated (cell 0, one external owner). -/
def lruW1 : World := (allocCell lruW0).1

/-- Cell 0 inserted under key 0. -/
def lruW2 : World := (lruInsert 0 0 lruW1).getD lruW0

/-- The sole external owner of cell 0 released. -/
def lruW3 : World := (releaseW 0 lruW2).getD lruW0

/-- A second value (cell 1) allocated and inserted under key 1, evicting the
key-0 node from the recency list. -/
def lruW4 : World := (lruInsert 1 1 ((allocCell lruW3).1)).getD lruW0

/-- From lruW2 (cell 0 still externally owned): a second value allocated. -/
def lruV3 : World := (allocCell lruW2).1

/-- Cell 1 inserted under key 1 on the full capacity-1 cache, evicting the
key-0 node while cell 0 is still alive. -/
def lruV4 : World := (lruInsert 1 1 lruV3).getD lruW0

theorem writeLE_out (w : Nat) (d : Nat → Nat) (pos v i : Nat)
    (h : i < pos ∨ pos + w ≤ i) : writeLE w d pos v i = d i := by
  induction w generalizing d pos v with
  | zero => rfl
  | succ w ih =>
      show writeLE w _ (pos + 1) (v / 256) i = d i
      rw [ih _ (pos + 1) (v / 256) (by omega)]
      have : i ≠ pos := by omega
      simp [this]

theorem readLE_congr (w : Nat) (f g : Nat → Nat) (pos : Nat)
    (h : ∀ j, j < w → f (pos + j) = g (pos + j)) : readLE w f pos = readLE w g pos := by
  induction w generalizing pos with
  | zero => rfl
  | succ w ih =>
      show f pos + 256 * readLE w f (pos + 1) = g pos + 256 * readLE w g (pos + 1)
      rw [ih (pos + 1) fun j hj => by
            have := h (1 + j) (by omega)
            simpa [Nat.add_assoc] using this]
      have h0 := h 0 (by omega)
      simp only [Nat.add_zero] at h0
      rw [h0]

theorem readLE_writeLE (w : Nat) (d : Nat → Nat) (pos v : Nat) :
    readLE w (writeLE w d pos v) pos = v % 256 ^ w := by
  induction w generalizing d pos v with
  | zero => simp [readLE, Nat.mod_one]
  | succ w ih =>
      simp only [writeLE, readLE]
      rw [writeLE_out w _ (pos + 1) (v / 256) pos (by omega), ih]
      simp only [if_true, eq_self_iff_true]
      rw [pow_succ' (256 : Nat) w, Nat.mod_mul]

theorem readLE_writeLE_out (w w' : Nat) (d : Nat → Nat) (pos pos' v : Nat)
    (h : pos' + w' ≤ pos ∨ pos + w ≤ pos') :
    readLE w' (writeLE w d pos v) pos' = readLE w' d pos' :=
  readLE_congr w' _ d pos' fun j hj => writeLE_out w d pos v (pos' + j) (by omega)

theorem writeBytes_out (d : Nat → Nat) (pos : Nat) (r : ByteStr) (i : Nat)
    (h : i < pos ∨ pos + r.len ≤ i) : writeBytes d pos r i = d i := by
  have : ¬ (pos ≤ i ∧ i < pos + r.len) := by omega
  simp [writeBytes, this]

theorem writeBytes_in (d : Nat → Nat) (pos : Nat) (r : ByteStr) (j : Nat)
    (h : j < r.len) : writeBytes d pos r (pos + j) = r.bytes j := by
  have : pos ≤ pos + j ∧ pos + j < pos + r.len := by omega
  simp [writeBytes, this]

theorem readLE_writeBytes_out (w' : Nat) (d : Nat → Nat) (pos : Nat) (r : ByteStr)
    (pos' : Nat) (h : pos' + w' ≤ pos ∨ pos + r.len ≤ pos') :
    readLE w' (writeBytes d pos r) pos' = readLE w' d pos' :=
  readLE_congr w' _ d pos' fun j hj => writeBytes_out d pos r (pos' + j) (by omega)

theorem readLE_bytesOf (w : Nat) (f : Nat → Nat) (pos v : Nat)
    (h : ∀ j, j < w → f (pos + j) = v / 256 ^ j % 256) :
    readLE w f pos = v % 256 ^ w := by
  induction w generalizing pos v with
  | zero => simp [readLE, Nat.mod_one]
  | succ w ih =>
      show f pos + 256 * readLE w f (pos + 1) = _
      have h0 := h 0 (by omega)
      simp only [pow_zero, Nat.div_one, Nat.add_zero] at h0
      rw [h0, ih (pos + 1) (v / 256) fun j hj => by
        have := h (1 + j) (by omega)
        rw [show pos + 1 + j = pos + (1 + j) from by omega]
        rw [this, pow_add, pow_one, Nat.div_div_eq_div_mul, Nat.mul_comm 256 (256 ^ j),
          ← Nat.div_div_eq_div_mul]]
      rw [pow_succ' (256 : Nat) w, Nat.mod_mul]

theorem wP_eq_two {P : Nat} (h : P ≤ 16384) : wP P = 2 := by simp [wP, h]

theorem wP_eq_four {P : Nat} (h : ¬ P ≤ 16384) : wP P = 4 := by simp [wP, h]

theorem headerSize_two {P : Nat} (h : P ≤ 16384) : headerSize P = 4 := by
  simp [headerSize, wP_eq_two h]

theorem Mof_two {P : Nat} (h : P ≤ 16384) : Mof P = 65536 := by
  simp [Mof, wP_eq_two h]

theorem dataSize_le {P : Nat} (h : P ≤ 16384) : dataSize P ≤ 16380 := by
  have := headerSize_two h
  simp [dataSize]
  omega

theorem dataSize_two {P : Nat} (h : P ≤ 16384) (h8 : 8 ≤ P) :
    dataSize P + 4 = P := by
  have := headerSize_two h
  simp [dataSize]
  omega

theorem recsSize_append (a b : List ByteStr) :
    recsSize (a ++ b) = recsSize a + recsSize b := by
  simp [recsSize]

theorem recsSize_take_le (rs : List ByteStr) (n : Nat) :
    recsSize (rs.take n) ≤ recsSize rs := by
  conv_rhs => rw [← List.take_append_drop n rs]
  rw [recsSize_append]
  omega

theorem recsSize_take_succ (rs : List ByteStr) (i : Nat) (h : i < rs.length) :
    recsSize (rs.take (i + 1)) = recsSize (rs.take i) + ((rs.get ⟨i, h⟩).len + 2) := by
  simp only [recsSize, List.map_take]
  rw [List.sum_take_succ _ i (by simpa using h)]
  simp [List.get_eq_getElem]

theorem startAt_append {P : Nat} {rs : List ByteStr} {r : ByteStr} {i : Nat}
    (h : i + 1 ≤ rs.length) : startAt P (rs ++ [r]) i = startAt P rs i := by
  unfold startAt
  rw [List.take_append_of_le_length h]

theorem PageInv.size {P : Nat} {p : page} {rs : List ByteStr}
    (inv : PageInv P p rs) (hP : P ≤ 16384) : pageSize P p = rs.length := by
  have hds := dataSize_le hP
  have h1 := inv.fs_eq
  have h2 := inv.sum_le
  unfold pageSize
  rw [headerSize_two hP, wP_eq_two hP, h1]
  omega

theorem PageInv.freeSpace {P : Nat} {p : page} {rs : List ByteStr}
    (inv : PageInv P p rs) (hP : P ≤ 16384) :
    pageFreeSpace P p + (recsSize rs + 4 + 2 * rs.length) = dataSize P := by
  have hds := dataSize_le hP
  have h1 := inv.fs_eq
  have h2 := inv.fe_eq
  have h3 := inv.sum_le
  unfold pageFreeSpace
  rw [if_pos hP, h1, h2]
  omega

theorem PageInv.base {P : Nat} (hP : P ≤ 16384) (h8 : 8 ≤ P) (d0 : Nat → Nat) :
    PageInv P (newPage P d0) [] := by
  have hds := dataSize_le hP
  have hds4 := dataSize_two hP h8
  refine ⟨?_, ?_, ?_, ?_, ?_, ?_⟩
  · simp [recsSize]; omega
  · simp [newPage, headerSize_two hP, Mof_two hP]
  · simp only [newPage, Mof_two hP, recsSize, List.map_nil, List.sum_nil]
    omega
  · intro i hi; simp at hi
  · intro i hi; simp at hi
  · intro i hi; simp at hi

theorem PageInv.insert_ok {P : Nat} {p : page} {rs : List ByteStr} {r : ByteStr}
    {p' : page} {idx : Nat} (hP : P ≤ 16384) (h8 : 8 ≤ P)
    (inv : PageInv P p rs) (hok : pageInsert P p r = .ok (p', idx)) :
    PageInv P p' (rs ++ [r]) ∧ idx = rs.length := by
  have hds := dataSize_le hP
  have hsz := inv.size hP
  have hfree := inv.freeSpace hP
  have hfs := inv.fs_eq
  have hfe := inv.fe_eq
  have hsum := inv.sum_le
  simp only [pageInsert, wP_eq_two hP, Mof_two hP, hsz] at hok
  split at hok
  · exact absurd hok (by simp)
  · rename_i hfits
    rw [not_not] at hfits
    split at hok
    · rename_i hb
      simp only [Except.ok.injEq, Prod.mk.injEq] at hok
      obtain ⟨hp', hidx⟩ := hok
      obtain ⟨hb1, hb2⟩ := hb
      -- the bounds check caps the payload length, so the size_t sums are exact
      have hlen : r.len ≤ dataSize P := by omega
      have hmod : (r.len + 2 + 2) % 2 ^ 64 = r.len + 4 := Nat.mod_eq_of_lt (by omega)
      rw [pageFits, hmod] at hfits
      have hst : ((p.free_region_end + 2 * 2 ^ 64) - (r.len + 2)) % 2 ^ 64 =
          p.free_region_end - (r.len + 2) := by omega
      rw [hst] at hb1 hp'
      set st := p.free_region_end - (r.len + 2) with hstdef
      -- the new record sits between the enlarged offset table and the old records
      have hstlow : 4 + 2 * rs.length + 2 ≤ st := by
        unfold pageFreeSpace at hfits
        rw [if_pos hP] at hfits
        omega
      have hsthigh : st + 2 + r.len = p.free_region_end := by
        unfold pageFreeSpace at hfits
        rw [if_pos hP] at hfits
        omega
      have hstv : st = dataSize P - (recsSize rs + (r.len + 2)) := by omega
      have hrs' : recsSize (rs ++ [r]) = recsSize rs + (r.len + 2) := by
        rw [recsSize_append]; simp [recsSize]
      have hge : ∀ i, i < rs.length → p.free_region_end ≤ startAt P rs i := by
        intro i hi
        have := recsSize_take_le rs (i + 1)
        unfold startAt
        omega
      subst hidx
      refine ⟨⟨?_, ?_, ?_, ?_, ?_, ?_⟩, rfl⟩
      · rw [hrs']
        simp only [List.length_append, List.length_cons, List.length_nil]
        omega
      · rw [← hp']
        simp only [List.length_append, List.length_cons, List.length_nil]
        omega
      · rw [← hp', hrs']
        have : st < 65536 := by omega
        simp only []
        omega
      · intro i hi
        simp only [List.length_append, List.length_cons, List.length_nil] at hi
        rw [← hp']
        simp only []
        rcases Nat.lt_or_ge i rs.length with hin | hin
        · rw [startAt_append (by omega)]
          rw [readLE_writeLE_out 2 2 _ (2 * rs.length) (2 * i) st (Or.inl (by omega))]
          rw [readLE_writeBytes_out 2 _ (st + 2) r (2 * i) (Or.inl (by omega))]
          rw [readLE_writeLE_out 2 2 p.data st (2 * i) r.len (Or.inl (by omega))]
          exact inv.table i hin
        · have hieq : i = rs.length := by omega
          subst hieq
          rw [readLE_writeLE]
          have h1 : st % 256 ^ 2 = st := Nat.mod_eq_of_lt (by omega)
          rw [h1]
          unfold startAt
          rw [List.take_of_length_le (by simp), hrs']
          omega
      · intro i hi
        have hilt : i < rs.length + 1 := by simpa using hi
        rw [← hp']
        simp only []
        rcases Nat.lt_or_ge i rs.length with hin | hin
        · rw [startAt_append (by omega)]
          have hgei := hge i hin
          rw [readLE_writeLE_out 2 2 _ (2 * rs.length) (startAt P rs i) st
                (Or.inr (by omega))]
          rw [readLE_writeBytes_out 2 _ (st + 2) r (startAt P rs i) (Or.inr (by omega))]
          rw [readLE_writeLE_out 2 2 p.data st (startAt P rs i) r.len (Or.inr (by omega))]
          rw [inv.plen i hin]
          congr 1
          rw [List.get_eq_getElem, List.get_eq_getElem, List.getElem_append_left hin]
        · have hieq : i = rs.length := by omega
          subst hieq
          have hsa : startAt P (rs ++ [r]) rs.length = st := by
            unfold startAt
            rw [List.take_of_length_le (by simp), hrs']
            omega
          rw [hsa]
          rw [readLE_writeLE_out 2 2 _ (2 * rs.length) st st (Or.inr (by omega))]
          rw [readLE_writeBytes_out 2 _ (st + 2) r st (Or.inl (by omega))]
          rw [readLE_writeLE]
          have hlast : (rs ++ [r]).get ⟨rs.length, hi⟩ = r := by
            rw [List.get_eq_getElem]
            exact List.getElem_concat_length rs r rs.length rfl hi
          rw [hlast]
          exact Nat.mod_eq_of_lt (by omega)
      · intro i hi j hj
        have hilt : i < rs.length + 1 := by simpa using hi
        rw [← hp']
        simp only []
        rcases Nat.lt_or_ge i rs.length with hin | hin
        · rw [startAt_append (by omega)]
          have hgei := hge i hin
          have hglr : (rs ++ [r]).get ⟨i, hi⟩ = rs.get ⟨i, hin⟩ := by
            rw [List.get_eq_getElem, List.get_eq_getElem, List.getElem_append_left hin]
          rw [hglr] at hj ⊢
          rw [writeLE_out 2 _ (2 * rs.length) st _ (Or.inr (by omega))]
          rw [writeBytes_out _ (st + 2) r _ (Or.inr (by omega))]
          rw [writeLE_out 2 p.data st r.len _ (Or.inr (by omega))]
          exact inv.pbytes i hin j hj
        · have hieq : i = rs.length := by omega
          subst hieq
          have hsa : startAt P (rs ++ [r]) rs.length = st := by
            unfold startAt
            rw [List.take_of_length_le (by simp), hrs']
            omega
          have hlast : (rs ++ [r]).get ⟨rs.length, hi⟩ = r := by
            rw [List.get_eq_getElem]
            exact List.getElem_concat_length rs r rs.length rfl hi
          rw [hlast] at hj ⊢
          rw [hsa]
          rw [writeLE_out 2 _ (2 * rs.length) st _ (Or.inr (by omega))]
          rw [show st + 2 + j = (st + 2) + j from rfl]
          rw [writeBytes_in _ (st + 2) r j hj]
    · exact absurd hok (by simp)

theorem PageTrace.inv {P : Nat} {p : page} {rs : List ByteStr} (hP : P ≤ 16384)
    (h8 : 8 ≤ P) (ht : PageTrace P p rs) : PageInv P p rs := by
  induction ht with
  | base d0 => exact PageInv.base hP h8 d0
  | step _ hr hok ih => exact (PageInv.insert_ok hP h8 ih hok).1

theorem PageInv.at_correct {P : Nat} {p : page} {rs : List ByteStr}
    (hP : P ≤ 16384) (h8 : 8 ≤ P) (inv : PageInv P p rs) :
    (∀ i, rs.length ≤ i → pageAt P p i = .error .outOfRange) ∧
    (∀ i (h : i < rs.length), pageAt P p i = .ok ((rs.get ⟨i, h⟩).toList)) := by
  have hds := dataSize_le hP
  have hsz := inv.size hP
  have hsum := inv.sum_le
  constructor
  · intro i hi
    have hnc : ¬ pageContains P p i := by unfold pageContains; omega
    simp [pageAt, hnc]
  · intro i h
    have hc : pageContains P p i := by unfold pageContains; omega
    have htb := inv.table i h
    have htsucc := recsSize_take_succ rs i h
    have htle := recsSize_take_le rs (i + 1)
    have htle2 := recsSize_take_le rs i
    have hg1 : 2 * i + 2 ≤ dataSize P := by omega
    have hg2 : startAt P rs i + 2 ≤ dataSize P := by
      unfold startAt
      omega
    have hg3 : startAt P rs i + 2 + (rs.get ⟨i, h⟩).len ≤ dataSize P := by
      unfold startAt
      omega
    have hpl := inv.plen i h
    simp only [pageAt, wP_eq_two hP]
    rw [if_neg (not_not_intro hc), if_pos hg1, htb, if_pos hg2, hpl, if_pos hg3]
    congr 1
    unfold ByteStr.toList
    refine List.map_congr_left fun j hj => ?_
    exact inv.pbytes i h j (List.mem_range.mp hj)

theorem getD_map_range (f : Nat → Nat) (n i : Nat) (hi : i < n) :
    ((List.range n).map f).getD i 0 = f i := by
  rw [List.getD_eq_getElem?_getD, List.getElem?_map, List.getElem?_range hi]
  rfl

theorem pow256 (w : Nat) : (256 : Nat) ^ w = 2 ^ (8 * w) := by
  rw [show (256 : Nat) = 2 ^ 8 from rfl, ← pow_mul]

theorem Mof_pos (P : Nat) : 0 < Mof P := Nat.pow_pos (by norm_num)

theorem pageInsert_header_lt {P : Nat} {p : page} {r : ByteStr} {p' : page} {idx : Nat}
    (hok : pageInsert P p r = .ok (p', idx)) :
    p'.free_region_start < Mof P ∧ p'.free_region_end < Mof P := by
  simp only [pageInsert] at hok
  split at hok
  · exact absurd hok (by simp)
  · split at hok
    · simp only [Except.ok.injEq, Prod.mk.injEq] at hok
      obtain ⟨hp', _⟩ := hok
      rw [← hp']
      exact ⟨Nat.mod_lt _ (Mof_pos P), Nat.mod_lt _ (Mof_pos P)⟩
    · exact absurd hok (by simp)

theorem PageReached.header_lt {P : Nat} {p : page} (h : PageReached P p) :
    p.free_region_start < Mof P ∧ p.free_region_end < Mof P := by
  induction h with
  | base d0 => exact ⟨Nat.mod_lt _ (Mof_pos P), Nat.mod_lt _ (Mof_pos P)⟩
  | step _ hok _ => exact pageInsert_header_lt hok

theorem serializePage_length {P : Nat} (p : page) (h : headerSize P ≤ P) :
    (serializePage P p).length = P := by
  have h' : 2 * wP P ≤ P := by simpa [headerSize] using h
  simp only [serializePage, List.length_append, List.length_map, List.length_range]
  simp only [dataSize, headerSize]
  omega

theorem pageAt_congr {P : Nat} {p q : page}
    (hfs : p.free_region_start = q.free_region_start)
    (hfe : p.free_region_end = q.free_region_end)
    (hd : ∀ i, i < dataSize P → p.data i = q.data i) (k : Nat) :
    pageAt P p k = pageAt P q k := by
  have hsz : pageSize P p = pageSize P q := by unfold pageSize; rw [hfs]
  have hcont : pageContains P p k ↔ pageContains P q k := by
    unfold pageContains; rw [hsz]
  simp only [pageAt]
  by_cases hc : pageContains P p k
  · rw [if_neg (not_not_intro hc), if_neg (not_not_intro (hcont.mp hc))]
    by_cases hg1 : wP P * k + wP P ≤ dataSize P
    · rw [if_pos hg1, if_pos hg1]
      have hw : 0 < wP P := by unfold wP; split <;> norm_num
      have hoff : readLE (wP P) p.data (wP P * k) = readLE (wP P) q.data (wP P * k) :=
        readLE_congr _ _ _ _ fun j hj => hd _ (by omega)
      rw [hoff]
      by_cases hg2 : readLE (wP P) q.data (wP P * k) + wP P ≤ dataSize P
      · rw [if_pos hg2, if_pos hg2]
        have hlen2 : readLE (wP P) p.data (readLE (wP P) q.data (wP P * k)) =
            readLE (wP P) q.data (readLE (wP P) q.data (wP P * k)) :=
          readLE_congr _ _ _ _ fun j hj => hd _ (by omega)
        rw [hlen2]
        by_cases hg3 : readLE (wP P) q.data (wP P * k) + wP P +
            readLE (wP P) q.data (readLE (wP P) q.data (wP P * k)) ≤ dataSize P
        · rw [if_pos hg3, if_pos hg3]
          congr 1
          refine List.map_congr_left fun j hj => ?_
          have hj' := List.mem_range.mp hj
          exact hd _ (by omega)
        · rw [if_neg hg3, if_neg hg3]
      · rw [if_neg hg2, if_neg hg2]
    · rw [if_neg hg1, if_neg hg1]
  · rw [if_pos hc, if_pos (fun h => hc (hcont.mpr h))]

theorem deserialize_serialize {P : Nat} (p q : page) (hhs : headerSize P ≤ P)
    (hfs : p.free_region_start < Mof P) (hfe : p.free_region_end < Mof P) :
    (deserializePage P (serializePage P p) q).free_region_start = p.free_region_start ∧
    (deserializePage P (serializePage P p) q).free_region_end = p.free_region_end ∧
    ∀ i, i < dataSize P →
      (deserializePage P (serializePage P p) q).data i = p.data i := by
  have hhdr : ∀ i, i < 2 * wP P → (serializePage P p).getD i 0 = hdrByte P p i := by
    intro i hi
    unfold serializePage
    rw [List.getD_append _ _ 0 i (by simpa using hi)]
    exact getD_map_range _ _ _ hi
  have hw : 0 < wP P := by unfold wP; split <;> norm_num
  refine ⟨?_, ?_, ?_⟩
  · show readLE (wP P) (fun i => (serializePage P p).getD i 0) 0 = _
    rw [readLE_bytesOf (wP P) _ 0 p.free_region_start ?_]
    · rw [pow256, ← Mof]
      exact Nat.mod_eq_of_lt hfs
    · intro j hj
      simp only [Nat.zero_add]
      rw [hhdr j (by omega)]
      unfold hdrByte
      rw [if_pos hj]
  · show readLE (wP P) (fun i => (serializePage P p).getD i 0) (wP P) = _
    rw [readLE_bytesOf (wP P) _ (wP P) p.free_region_end ?_]
    · rw [pow256, ← Mof]
      exact Nat.mod_eq_of_lt hfe
    · intro j hj
      rw [hhdr (wP P + j) (by omega)]
      unfold hdrByte
      rw [if_neg (by omega), show wP P + j - wP P = j from by omega]
  · intro i hi
    show (if i < dataSize P then (serializePage P p).getD (2 * wP P + i) 0 else q.data i) = _
    rw [if_pos hi]
    unfold serializePage
    rw [List.getD_append_right _ _ 0 _ (by simp)]
    have : 2 * wP P + i - ((List.range (2 * wP P)).map (hdrByte P p)).length = i := by
      simp
    rw [this]
    exact getD_map_range _ _ _ hi

theorem countCell_cons (c : Nat) (n : LNode) (l : List LNode) :
    countCell c (n :: l) = (if n.cell = c then 1 else 0) + countCell c l := by
  simp only [countCell, List.filter_cons]
  split
  · rename_i hb
    simp only [List.length_cons]
    simp at hb
    simp [hb]
    omega
  · rename_i hb
    simp at hb
    simp [hb]

theorem countCell_append (c : Nat) (l1 l2 : List LNode) :
    countCell c (l1 ++ l2) = countCell c l1 + countCell c l2 := by
  simp [countCell, List.filter_append]

theorem countCell_pos_of_mem {c : Nat} {n : LNode} {l : List LNode}
    (hn : n ∈ l) (hc : n.cell = c) : 0 < countCell c l :=
  List.length_pos.mpr (List.ne_nil_of_mem (List.mem_filter.mpr ⟨hn, by simp [hc]⟩))

theorem extractNode_length {nid : Nat} :
    ∀ {l : List LNode} {n : LNode} {rest : List LNode},
      extractNode nid l = some (n, rest) → rest.length + 1 = l.length := by
  intro l
  induction l with
  | nil => intro n rest h; simp [extractNode] at h
  | cons m tail ih =>
      intro n rest h
      simp only [extractNode] at h
      split at h
      · simp only [Option.some.injEq, Prod.mk.injEq] at h
        obtain ⟨_, hrest⟩ := h
        subst hrest
        simp
      · rcases hrec : extractNode nid tail with _ | ⟨m2, l2⟩
        · rw [hrec] at h; exact absurd h (by simp)
        · rw [hrec] at h
          simp only [Option.some.injEq, Prod.mk.injEq] at h
          obtain ⟨_, hrest⟩ := h
          subst hrest
          have := ih hrec
          simp only [List.length_cons]
          omega

theorem lruInsert_shape {k c : Nat} {w w' : World} (h : lruInsert k c w = some w') :
    ∃ l1, (if w.cache.m_size ≤ w.cache.m_list.length then popBack w.cache.m_list
            else some w.cache.m_list) = some l1 ∧
      w'.cache.m_list = ⟨w.cache.nextNode, c⟩ :: l1 ∧
      w'.cache.m_map k = some c ∧
      w'.cache.m_iter_map k = some w.cache.nextNode ∧
      (∀ k2, k2 ≠ k → w'.cache.m_map k2 = w.cache.m_map k2 ∧
        w'.cache.m_iter_map k2 = w.cache.m_iter_map k2) ∧
      w'.cache.m_size = w.cache.m_size ∧ w'.ext = w.ext := by
  simp only [lruInsert] at h
  rcases hx : (if w.cache.m_size ≤ w.cache.m_list.length then popBack w.cache.m_list
      else some w.cache.m_list) with _ | l1
  · rw [hx] at h; exact absurd h (by simp)
  · rw [hx] at h
    simp only [Option.some.injEq] at h
    subst h
    refine ⟨l1, rfl, rfl, by simp, by simp, ?_, rfl, rfl⟩
    intro k2 hk2
    constructor <;> simp [hk2]

theorem lruGet_preserves {k : Nat} {w w' : World} {r : Option Nat}
    (h : lruGet k w = some (w', r)) :
    w'.cache.m_size = w.cache.m_size ∧
    w'.cache.m_list.length = w.cache.m_list.length ∧ w'.ext = w.ext := by
  rcases hm : w.cache.m_map k with _ | c
  · simp only [lruGet, hm, Option.some.injEq, Prod.mk.injEq] at h
    obtain ⟨hw, _⟩ := h
    subst hw
    exact ⟨rfl, rfl, rfl⟩
  · simp only [lruGet, hm] at h
    split at h
    · simp only [Option.some.injEq, Prod.mk.injEq] at h
      obtain ⟨hw, _⟩ := h
      subst hw
      exact ⟨rfl, rfl, rfl⟩
    · rcases hi : w.cache.m_iter_map k with _ | nid
      · simp [hi] at h
      · simp only [hi] at h
        rcases hx : extractNode nid w.cache.m_list with _ | ⟨n, rest⟩
        · simp [hx] at h
        · simp only [hx, Option.some.injEq, Prod.mk.injEq] at h
          obtain ⟨hw, _⟩ := h
          subst hw
          refine ⟨rfl, ?_, rfl⟩
          simp only [List.length_cons]
          exact extractNode_length hx

theorem ReachableW.msize {cap : Nat} {w : World} (h : ReachableW cap w) :
    w.cache.m_size = cap := by
  induction h with
  | init => rfl
  | step _ hs ih =>
      cases hs with
      | alloc w => exact ih
      | release c w w' hrel =>
          unfold releaseW at hrel
          split at hrel
          · exact absurd hrel (by simp)
          · simp only [Option.some.injEq] at hrel
            subst hrel
            exact ih
      | insert k c w w' hext hins =>
          obtain ⟨l1, _, _, _, _, _, hms, _⟩ := lruInsert_shape hins
          rw [hms]; exact ih
      | get k w w' r hget => rw [(lruGet_preserves hget).1]; exact ih

theorem ReachableW.length_le {cap : Nat} {w : World} (h : ReachableW cap w) :
    w.cache.m_list.length ≤ cap := by
  induction h with
  | init => simp [initWorld, initLru]
  | step hr hs ih =>
      rename_i w w'
      cases hs with
      | alloc w => exact ih
      | release c w w' hrel =>
          unfold releaseW at hrel
          split at hrel
          · exact absurd hrel (by simp)
          · simp only [Option.some.injEq] at hrel
            subst hrel
            exact ih
      | insert k c w w' hext hins =>
          have hms := hr.msize
          obtain ⟨l1, hx, hlist, _, _, _, _, _⟩ := lruInsert_shape hins
          rw [hlist, List.length_cons]
          split at hx
          · rename_i hfull
            unfold popBack at hx
            split at hx
            · exact absurd hx (by simp)
            · rename_i hne
              simp only [Option.some.injEq] at hx
              subst hx
              have hl0 : w.cache.m_list.length ≠ 0 := fun h0 =>
                hne (List.eq_nil_of_length_eq_zero h0)
              simp only [List.length_dropLast]
              omega
          · rename_i hnotfull
            simp only [Option.some.injEq] at hx
            subst hx
            omega
      | get k w w' r hget => rw [(lruGet_preserves hget).2.1]; exact ih

theorem lruInsert_evict {k c : Nat} {w w' : World} (h : lruInsert k c w = some w')
    (hfull : w.cache.m_size ≤ w.cache.m_list.length) :
    w.cache.m_list ≠ [] ∧
    w'.cache.m_list = ⟨w.cache.nextNode, c⟩ :: w.cache.m_list.dropLast := by
  by_cases hemp : w.cache.m_list = []
  · have hms0 : w.cache.m_size = 0 := by
      rw [hemp] at hfull
      simpa using hfull
    simp [lruInsert, popBack, hemp, hms0] at h
  · simp only [lruInsert, if_pos hfull, popBack, if_neg hemp, Option.some.injEq] at h
    subst h
    exact ⟨hemp, rfl⟩

theorem lruInsert_evict_dead {k c : Nat} {w w' : World} (h : lruInsert k c w = some w')
    (hfull : w.cache.m_size ≤ w.cache.m_list.length) (hne : w.cache.m_list ≠ [])
    (hnoext : w.ext (w.cache.m_list.getLast hne).cell = 0)
    (honce : countCell (w.cache.m_list.getLast hne).cell w.cache.m_list = 1)
    (hdiff : (w.cache.m_list.getLast hne).cell ≠ c) :
    strongCount w' (w.cache.m_list.getLast hne).cell = 0 := by
  obtain ⟨_, hlist⟩ := lruInsert_evict h hfull
  obtain ⟨l1, _, _, _, _, _, _, hext⟩ := lruInsert_shape h
  have hdecomp := List.dropLast_append_getLast hne
  have hcnt : countCell (w.cache.m_list.getLast hne).cell w.cache.m_list.dropLast +
      countCell (w.cache.m_list.getLast hne).cell [w.cache.m_list.getLast hne] = 1 := by
    rw [← countCell_append, hdecomp]
    exact honce
  have hone : countCell (w.cache.m_list.getLast hne).cell
      [w.cache.m_list.getLast hne] = 1 := by
    simp [countCell]
  unfold strongCount
  rw [hext, hnoext, hlist, countCell_cons, if_neg (fun hh => hdiff hh.symm)]
  omega

theorem lruInsert_release_get {k c : Nat} {w w1 w2 : World}
    (h1 : lruInsert k c w = some w1) (h2 : releaseW c w1 = some w2) :
    ((lruGet k w2).map fun pr => pr.2) = some (some c) ∧
    ((lruGet k w2).map fun pr => pr.1.cache.m_map k) = some (some c) := by
  obtain ⟨l1, hx, hlist, hmap, hiter, _, _, hext⟩ := lruInsert_shape h1
  unfold releaseW at h2
  split at h2
  · simp at h2
  · simp only [Option.some.injEq] at h2
    subst h2
    have hpos : 0 < countCell c w1.cache.m_list := by
      rw [hlist, countCell_cons]
      simp
    simp only [lruGet, hmap, hiter, hlist]
    rw [if_neg ?hcond]
    case hcond =>
      simp only [eq_self_iff_true, if_true, countCell_cons]
      omega
    simp only [extractNode, eq_self_iff_true, if_true]
    constructor
    · rfl
    · simp [hmap]

theorem lruGet_dead_purge {k c : Nat} {w : World} (hm : w.cache.m_map k = some c)
    (hdead : w.ext c + countCell c w.cache.m_list = 0) :
    lruGet k w = some ({ w with cache := { w.cache with
        m_map := fun k2 => if k2 = k then none else w.cache.m_map k2
        m_iter_map := fun k2 => if k2 = k then none else w.cache.m_iter_map k2 } },
      none) := by
  simp only [lruGet, hm, if_pos hdead]

theorem lruInsert_total {cap : Nat} {w : World} (hcap : 1 ≤ cap)
    (hr : ReachableW cap w) (k c : Nat) : lruInsert k c w ≠ none := by
  have hms := hr.msize
  intro hnone
  simp only [lruInsert] at hnone
  rcases hx : (if w.cache.m_size ≤ w.cache.m_list.length then popBack w.cache.m_list
      else some w.cache.m_list) with _ | l1
  · split at hx
    · rename_i hfull
      unfold popBack at hx
      split at hx
      · rename_i hemp
        have h0 : w.cache.m_list.length = 0 := by rw [hemp]; rfl
        omega
      · simp at hx
    · simp at hx
  · rw [hx] at hnone
    simp at hnone

theorem lruInsert_cap0 (k c : Nat) : lruInsert k c (initWorld 0) = none := rfl

theorem cached_alive {cap : Nat} {w : World} (hr : ReachableW cap w) {n : LNode}
    (hn : n ∈ w.cache.m_list) : 0 < strongCount w n.cell := by
  unfold strongCount
  have := countCell_pos_of_mem hn rfl
  omega

/-- C1: the spec asserts 0 <= free_region_start <= free_region_end <= data_size
after every public operation, in particular after clear().  The code violates
this: clear() stores PageSize (16384 for the default page) into
free_region_end, which exceeds data_size = PageSize - sizeof(header) = 16380,
so the state reached by clear() breaks the claimed header invariant. -/
theorem C1_clear_breaks_header_invariant :
    cleared16384.free_region_start = 4 ∧
    cleared16384.free_region_end = 16384 ∧
    dataSize 16384 = 16380 ∧
    ¬ cleared16384.free_region_end ≤ dataSize 16384 := by
  decide

/-- C2: the spec asserts clear() restores exactly the freshly constructed
header (free_region_start = header_size, free_region_end = data_size), hence
the same free_space() as a new page, touching no data byte.  The code restores
free_region_start, leaves the buffer untouched and size() = 0, but stores
PageSize instead of data_size into free_region_end, so the header and
free_space() differ from a fresh page (16380 against 16376). -/
theorem C2_clear_not_fresh_page :
    cleared16384.free_region_start = fresh16384.free_region_start ∧
    pageSize 16384 cleared16384 = 0 ∧
    cleared16384.free_region_end = 16384 ∧
    fresh16384.free_region_end = 16380 ∧
    cleared16384.free_region_end ≠ fresh16384.free_region_end ∧
    pageFreeSpace 16384 cleared16384 = 16380 ∧
    pageFreeSpace 16384 fresh16384 = 16376 ∧
    (∀ (P : Nat) (p : page), (pageClear P p).data = p.data) := by
  refine ⟨by decide, by decide, by decide, by decide, by decide, by decide, by decide,
    fun P p => rfl⟩

/-- C3: the spec asserts insert raises out-of-space exactly when
payload length + offset_width + length_prefix_width exceeds
free_region_end - free_region_start.  The code checks
data.size() + sizeof(intra_offset_t) + 2 instead; for a capacity above 16384
the offset width is 4, so the check is short by two bytes.  On a fresh
capacity-16388 page (free space 16372) a 16365-byte record needs
16365 + 4 + 4 = 16373 bytes and must be refused by the claim, yet the insert
succeeds, and it leaves free_region_end (11) below free_region_start (12). -/
theorem C3_insert_size_check_short :
    pageFreeSpace 16388 wideP0 = 16372 ∧
    pageFreeSpace 16388 wideP0 < wideR1.len + 4 + 4 ∧
    insOut wideStep1 = some (12, 11, 0) ∧
    wideP1.free_region_end < wideP1.free_region_start := by
  decide

/-- C7 counterexample: on a capacity-16388 page (32-bit offsets) two successful
inserts — a 16365-byte record then a 3-byte record — leave the page in a state
where at(1) returns four bytes, not the three that were inserted: the
under-sized space check let the second insert overwrite its own length prefix
with the offset-table entry.  This refutes the claim for arbitrary capacity. -/
theorem C7_counterexample_at_wrong_bytes :
    insOut wideStep1 = some (12, 11, 0) ∧
    insOut wideStep2 = some (16, 4, 1) ∧
    wideR2.toList = [65, 65, 65] ∧
    pageAt 16388 wideP2 1 = .ok [65, 65, 65, 237] ∧
    pageAt 16388 wideP2 1 ≠ .ok wideR2.toList := by
  decide

/-- C7 amended: for a page of capacity at most 16384 (16-bit offsets, the
regime where the insert space check is exact) and at least 8, built by any
sequence of successful inserts: at(index) raises index-out-of-range exactly
when index is at least size(), and for index below size() it returns exactly
the bytes passed to the insert that returned that index (inserts return the
indices 0, 1, 2, ... in order, the next one being size()). -/
theorem C7_amended_at_exact {P : Nat} {p : page} {rs : List ByteStr}
    (hP : P ≤ 16384) (h8 : 8 ≤ P) (ht : PageTrace P p rs) :
    pageSize P p = rs.length ∧
    (∀ i, rs.length ≤ i → pageAt P p i = .error .outOfRange) ∧
    (∀ i (h : i < rs.length), pageAt P p i = .ok ((rs.get ⟨i, h⟩).toList)) ∧
    (∀ r p' idx, pageInsert P p r = .ok (p', idx) → idx = rs.length) := by
  have inv := ht.inv hP h8
  exact ⟨inv.size hP, (PageInv.at_correct hP h8 inv).1, (PageInv.at_correct hP h8 inv).2,
    fun r p' idx hok => (PageInv.insert_ok hP h8 inv hok).2⟩

/-- C7 witness: the amended theorem applied to the capacity-128 page holding
the records Hello and World. -/
theorem C7_witness_small_page :
    pageAt 128 smallP2 0 = .ok (smallR1.toList) ∧
    pageAt 128 smallP2 1 = .ok (smallR2.toList) ∧
    pageAt 128 smallP2 2 = .error .outOfRange ∧
    pageSize 128 smallP2 = 2 :=
  have ht : PageTrace 128 smallP2 [smallR1, smallR2] :=
    PageTrace.step
      (PageTrace.step (PageTrace.base (fun _ => 0)) (by decide)
        (show pageInsert 128 smallP0 smallR1 = Except.ok (smallP1, 0) from rfl))
      (by decide)
      (show pageInsert 128 smallP1 smallR2 = Except.ok (smallP2, 1) from rfl)
  ⟨(C7_amended_at_exact (by decide) (by decide) ht).2.2.1 0 (by decide),
   (C7_amended_at_exact (by decide) (by decide) ht).2.2.1 1 (by decide),
   (C7_amended_at_exact (by decide) (by decide) ht).2.1 2 (by decide),
   (C7_amended_at_exact (by decide) (by decide) ht).1⟩

/-- C9 counterexample: on a capacity-16388 page the successful insert of a
16365-byte record does not decrease free_space() by
payload_len + 2*offset_width = 16373; free_space() wraps from 16372 to
4294967295, an increase. -/
theorem C9_counterexample_free_space_grows :
    insOut wideStep1 = some (12, 11, 0) ∧
    pageFreeSpace 16388 wideP0 = 16372 ∧
    pageFreeSpace 16388 wideP1 = 4294967295 ∧
    ¬ pageFreeSpace 16388 wideP1 < pageFreeSpace 16388 wideP0 := by
  decide

/-- C9 amended: for a page of capacity at most 16384 (16-bit offsets) and at
least 8, built by any sequence of successful inserts, every further successful
insert of a payload of length len strictly decreases free_space() by exactly
len + 2*offset_width (= len + 4) and increases size() by exactly 1. -/
theorem C9_amended_insert_accounting {P : Nat} {p : page} {rs : List ByteStr}
    {r : ByteStr} {p' : page} {idx : Nat} (hP : P ≤ 16384) (h8 : 8 ≤ P)
    (ht : PageTrace P p rs) (hok : pageInsert P p r = .ok (p', idx)) :
    pageFreeSpace P p' + (r.len + 2 * 2) = pageFreeSpace P p ∧
    pageFreeSpace P p' < pageFreeSpace P p ∧
    pageSize P p' = pageSize P p + 1 := by
  have inv := ht.inv hP h8
  have step := PageInv.insert_ok hP h8 inv hok
  have h1 := inv.freeSpace hP
  have h2 := step.1.freeSpace hP
  have hs1 := inv.size hP
  have hs2 := step.1.size hP
  have hsing : recsSize [r] = r.len + 2 := by simp [recsSize]
  rw [recsSize_append, hsing] at h2
  simp only [List.length_append, List.length_cons, List.length_nil] at h2
  simp only [List.length_append, List.length_cons, List.length_nil] at hs2
  constructor
  · omega
  constructor
  · omega
  · omega

/-- C9 witness: the amended theorem applied to the capacity-128 page: inserting
World after Hello takes free_space() from 111 to 102 and size() from 1 to 2. -/
theorem C9_witness_small_page :
    pageFreeSpace 128 smallP2 + (smallR2.len + 2 * 2) = pageFreeSpace 128 smallP1 ∧
    pageFreeSpace 128 smallP2 < pageFreeSpace 128 smallP1 ∧
    pageSize 128 smallP2 = pageSize 128 smallP1 + 1 :=
  have ht : PageTrace 128 smallP1 [smallR1] :=
    PageTrace.step (PageTrace.base (fun _ => 0)) (by decide)
      (show pageInsert 128 smallP0 smallR1 = Except.ok (smallP1, 0) from rfl)
  C9_amended_insert_accounting (by decide) (by decide) ht
    (show pageInsert 128 smallP1 smallR2 = Except.ok (smallP2, 1) from rfl)

/-- C8: serializing a page built by successful inserts writes exactly Capacity
bytes (the header fields in order, then the whole data buffer), and
deserializing those bytes into a freshly constructed page of the same capacity
yields a page with the same size() whose at(i) agrees byte for byte at every
index (valid indices return identical records, invalid ones the same error). -/
theorem C8_serialize_roundtrip {P : Nat} {p : page} (hhs : headerSize P ≤ P)
    (hre : PageReached P p) (d1 : Nat → Nat) :
    (serializePage P p).length = P ∧
    pageSize P (deserializePage P (serializePage P p) (newPage P d1)) = pageSize P p ∧
    ∀ i, pageAt P (deserializePage P (serializePage P p) (newPage P d1)) i =
      pageAt P p i := by
  obtain ⟨hfs, hfe⟩ := hre.header_lt
  obtain ⟨e1, e2, e3⟩ := deserialize_serialize p (newPage P d1) hhs hfs hfe
  refine ⟨serializePage_length p hhs, ?_, fun i => pageAt_congr e1 e2 e3 i⟩
  unfold pageSize
  rw [e1]

/-- C8 witness: the round trip of the capacity-128 page holding Hello and
World, checked on its length, size and record 1. -/
theorem C8_witness_roundtrip :
    (serializePage 128 smallP2).length = 128 ∧
    pageSize 128 (deserializePage 128 (serializePage 128 smallP2)
      (newPage 128 (fun _ => 0))) = pageSize 128 smallP2 ∧
    pageAt 128 (deserializePage 128 (serializePage 128 smallP2)
      (newPage 128 (fun _ => 0))) 1 = pageAt 128 smallP2 1 :=
  have hre : PageReached 128 smallP2 :=
    PageReached.step
      (PageReached.step (PageReached.base (fun _ => 0))
        (show pageInsert 128 smallP0 smallR1 = Except.ok (smallP1, 0) from rfl))
      (show pageInsert 128 smallP1 smallR2 = Except.ok (smallP2, 1) from rfl)
  ⟨(C8_serialize_roundtrip (by decide) hre (fun _ => 0)).1,
   (C8_serialize_roundtrip (by decide) hre (fun _ => 0)).2.1,
   (C8_serialize_roundtrip (by decide) hre (fun _ => 0)).2.2 1⟩

/-- C4 counterexample: the cache does own values.  With capacity 1, insert
cell 0 under key 0 and release its only external owner: the entry is still
cached (one list reference), its strong count is still 1 — the cache's
reference has not become dead — and get still returns it.  Then inserting key 1
evicts the tail, and the value's strong count drops to 0: the eviction itself
destroyed the value.  Both halves of the claim fail. -/
theorem C4_counterexample_cache_owns :
    (lruInsert 0 0 lruW1).isSome = true ∧
    (releaseW 0 lruW2).isSome = true ∧
    lruW3.ext 0 = 0 ∧
    countCell 0 lruW3.cache.m_list = 1 ∧
    strongCount lruW3 0 = 1 ∧
    ((lruGet 0 lruW3).map fun pr => pr.2) = some (some 0) ∧
    (lruInsert 1 1 ((allocCell lruW3).1)).isSome = true ∧
    strongCount lruW4 0 = 0 := by
  decide

/-- C4 amended: the cache co-owns every cached value through its recency list:
each list node holds a strong reference, so in every reachable world every cell
referenced by the list has a positive strong count — even with no external
owner left.  Dually, evicting the least-recently-used tail drops that strong
reference: if the tail's cell has no external owner, occurs exactly once in the
list and differs from the inserted pointer, the eviction leaves its strong
count at zero, destroying the value. -/
theorem C4_amended_cache_co_owns :
    (∀ cap (w : World), ReachableW cap w → ∀ n ∈ w.cache.m_list,
      0 < strongCount w n.cell) ∧
    (∀ k c (w w' : World), lruInsert k c w = some w' →
      w.cache.m_size ≤ w.cache.m_list.length →
      ∀ hne : w.cache.m_list ≠ [],
        w.ext (w.cache.m_list.getLast hne).cell = 0 →
        countCell (w.cache.m_list.getLast hne).cell w.cache.m_list = 1 →
        (w.cache.m_list.getLast hne).cell ≠ c →
        strongCount w' (w.cache.m_list.getLast hne).cell = 0) :=
  ⟨fun _ _ hr _ hn => cached_alive hr hn,
   fun _ _ _ _ h hfull hne h1 h2 h3 => lruInsert_evict_dead h hfull hne h1 h2 h3⟩

/-- C4 witness: both halves of the amended theorem at the concrete run — the
cached cell 0 is alive in lruW2, and the eviction in the step to lruW4 leaves
cell 0 with strong count zero. -/
theorem C4_witness_concrete :
    0 < strongCount lruW2 0 ∧ strongCount lruW4 0 = 0 :=
  have hr2 : ReachableW 1 lruW2 :=
    ReachableW.step (ReachableW.step ReachableW.init (LruStep.alloc lruW0))
      (LruStep.insert 0 0 lruW1 lruW2 (by decide) rfl)
  ⟨C4_amended_cache_co_owns.1 1 lruW2 hr2 ⟨0, 0⟩ (by decide),
   C4_amended_cache_co_owns.2 1 1 ((allocCell lruW3).1) lruW4 rfl (by decide)
     (by decide) (by decide) (by decide) (by decide)⟩

/-- C5 counterexample: with capacity 1, insert cell 0 under key 0 and release
its sole external strong owner; the next get on key 0 does not return absent —
it returns the value, and the key's entries stay in both maps — because the
recency list's own strong reference keeps the value alive. -/
theorem C5_counterexample_get_alive_after_release :
    lruW3.ext 0 = 0 ∧
    ((lruGet 0 lruW3).map fun pr => pr.2) = some (some 0) ∧
    ((lruGet 0 lruW3).map fun pr => pr.1.cache.m_map 0) = some (some 0) ∧
    ((lruGet 0 lruW3).map fun pr => pr.1.cache.m_iter_map 0) = some (some 0) := by
  decide

/-- C5 amended: after inserting a key and then releasing every external strong
owner of its value, get on that key still returns the value (the list's strong
reference keeps it alive) and leaves the key mapped; get returns absent and
purges the key from both auxiliary maps (leaving the list untouched) exactly in
the lazy-reclamation case, i.e. when the referenced cell's total strong count
is zero — which requires the list entry to have been evicted first. -/
theorem C5_amended_get_live_value_or_purge :
    (∀ k c (w w1 w2 : World), lruInsert k c w = some w1 → releaseW c w1 = some w2 →
      ((lruGet k w2).map fun pr => pr.2) = some (some c) ∧
      ((lruGet k w2).map fun pr => pr.1.cache.m_map k) = some (some c)) ∧
    (∀ k c (w : World), w.cache.m_map k = some c →
      w.ext c + countCell c w.cache.m_list = 0 →
      lruGet k w = some ({ w with cache := { w.cache with
          m_map := fun k2 => if k2 = k then none else w.cache.m_map k2
          m_iter_map := fun k2 => if k2 = k then none else w.cache.m_iter_map k2 } },
        none)) :=
  ⟨fun _ _ _ _ _ h1 h2 => lruInsert_release_get h1 h2,
   fun _ _ _ hm hd => lruGet_dead_purge hm hd⟩

/-- C5 witness: the first half of the amended theorem at the concrete
insert-release-get run on key 0. -/
theorem C5_witness_concrete :
    ((lruGet 0 lruW3).map fun pr => pr.2) = some (some 0) ∧
    ((lruGet 0 lruW3).map fun pr => pr.1.cache.m_map 0) = some (some 0) :=
  C5_amended_get_live_value_or_purge.1 0 0 lruW1 lruW2 lruW3 rfl rfl

/-- C6 counterexample: with capacity 1, insert key 0 then key 1, both values
keeping a live external owner.  The eviction of key 0's node removes it only
from the recency list: key 0 still has its entries in the key-to-reference map
and the key-to-position map (and its value was never reclaimed — its external
owner is still alive), so the claimed list-map bijection and the claim that
eviction removes the key from both maps are false. -/
theorem C6_counterexample_stale_map_entries :
    (lruInsert 1 1 lruV3).isSome = true ∧
    lruV4.cache.m_list.length = 1 ∧
    (lruV4.cache.m_list.map fun n => n.id) = [1] ∧
    countCell 0 lruV4.cache.m_list = 0 ∧
    lruV4.cache.m_map 0 = some 0 ∧
    lruV4.cache.m_iter_map 0 = some 0 ∧
    lruV4.ext 0 = 1 := by
  decide

/-- C6 amended: in every reachable world the recency list's length is at most
the capacity, and eviction on a full insert removes the victim only from the
recency list: an insert leaves the map entries of every key other than the
inserted one — including the evicted key — unchanged in both auxiliary maps. -/
theorem C6_amended_length_bound_and_stale_maps :
    (∀ cap (w : World), ReachableW cap w → w.cache.m_list.length ≤ cap) ∧
    (∀ k c (w w' : World), lruInsert k c w = some w' → ∀ k2, k2 ≠ k →
      w'.cache.m_map k2 = w.cache.m_map k2 ∧
      w'.cache.m_iter_map k2 = w.cache.m_iter_map k2) :=
  ⟨fun _ _ hr => hr.length_le,
   fun _ _ _ _ h k2 hk2 => by
     obtain ⟨l1, _, _, _, _, hoth, _, _⟩ := lruInsert_shape h
     exact hoth k2 hk2⟩

/-- C6 witness: the amended theorem at the concrete run — lruV4 is reachable
with list length within capacity 1, and the insert that built it left key 0's
map entry unchanged. -/
theorem C6_witness_concrete :
    lruV4.cache.m_list.length ≤ 1 ∧
    lruV4.cache.m_map 0 = lruV3.cache.m_map 0 :=
  have hr : ReachableW 1 lruV4 :=
    ReachableW.step
      (ReachableW.step
        (ReachableW.step (ReachableW.step ReachableW.init (LruStep.alloc lruW0))
          (LruStep.insert 0 0 lruW1 lruW2 (by decide) rfl))
        (LruStep.alloc lruW2))
      (LruStep.insert 1 1 lruV3 lruV4 (by decide) rfl)
  ⟨C6_amended_length_bound_and_stale_maps.1 1 lruV4 hr,
   (C6_amended_length_bound_and_stale_maps.2 1 1 lruV3 lruV4 rfl 0 (by decide)).1⟩

/-- C10: in any world reachable from a cache of capacity at least 1, whenever
insert takes its eviction branch (recency-list length at least capacity) the
list is non-empty, so the pop_back removing the least-recently-used tail is
well defined, and insert never runs into the undefined pop_back-on-empty; a
cache of capacity 0 is outside the guarantee: its very first insert reaches
pop_back with an empty list (an undefined execution, modelled as none). -/
theorem C10_eviction_branch_well_defined {cap : Nat} (hcap : 1 ≤ cap) :
    (∀ w : World, ReachableW cap w → w.cache.m_size ≤ w.cache.m_list.length →
      w.cache.m_list ≠ []) ∧
    (∀ (w : World) k c, ReachableW cap w → lruInsert k c w ≠ none) ∧
    (∀ k c, lruInsert k c (initWorld 0) = none) := by
  refine ⟨?_, ?_, ?_⟩
  · intro w hr hfull hemp
    have hms := hr.msize
    have h0 : w.cache.m_list.length = 0 := by rw [hemp]; rfl
    omega
  · intro w k c hr
    exact lruInsert_total hcap hr k c
  · intro k c
    exact lruInsert_cap0 k c

/-- C10 witness: a capacity-0 cache's first insert is the undefined pop_back
on an empty list, while on the reachable capacity-1 world lruW1 insert is
well defined. -/
theorem C10_witness_concrete :
    lruInsert 0 0 (initWorld 0) = none ∧ lruInsert 0 0 lruW1 ≠ none :=
  have hr1 : ReachableW 1 lruW1 :=
    ReachableW.step ReachableW.init (LruStep.alloc lruW0)
  ⟨(C10_eviction_branch_well_defined (le_refl 1)).2.2 0 0,
   (C10_eviction_branch_well_defined (le_refl 1)).2.1 lruW1 0 0 hr1⟩
